import Mathlib

/-!
Verification development for the dagr measurement library and its outflux
delivery proxy.  Go source functions are shallowly embedded as Lean
definitions: byte strings are `List Char` (Go compares strings by UTF-8
bytes, and UTF-8 byte order coincides with codepoint order, so `Char`
lexicographic order is faithful), Go maps are association lists,
`bytes.Buffer` values are `TempBuffer`, and fallible calls return an
explicit error component.
-/

namespace Dagr

/-- Error codes of the dagr package (src/error.go, src/unnamed/part_003). -/
inductive DagrError
  | noFields
  | emptyKey
  | noAllocator
deriving DecidableEq

/-- A Go string viewed as its byte sequence.  Go compares strings
bytewise; over UTF-8 the induced order equals `Char` codepoint
lexicographic order, which is the `List Char` order used here. -/
abbrev GoStr := List Char

/-- True for the three characters rewritten by `tagEscaper`
(src/write.go:102-106): space, equals sign, comma. -/
def isTagSpecial (c : Char) : Bool :=
  c = ' ' || c = '=' || c = ','

/-- The `tagEscaper` replacer of src/write.go:102-106: each of the three
special characters is prefixed with a backslash; every other byte is
copied unchanged. -/
def tagEscape : List Char → List Char
  | [] => []
  | c :: rest =>
    if isTagSpecial c then '\\' :: c :: tagEscape rest
    else c :: tagEscape rest

/-- Modelled from the spec: the unescaper corresponding to `tagEscaper`
is not present under src/ (the spec states the escape rules are
invertible over the tag/name alphabet).  Scanning left to right, a
backslash immediately followed by one of the three special characters is
dropped; every other byte is copied unchanged. -/
def tagUnescape : List Char → List Char
  | [] => []
  | [c] => [c]
  | c :: d :: rest =>
    if c = '\\' && isTagSpecial d then d :: tagUnescape rest
    else c :: tagUnescape (d :: rest)
termination_by l => l.length

/-- Decimal digit characters, used to model `strconv.AppendInt`
(the Go standard library routine called by `writeTimestamp` in
src/write.go:248-253 and by `fixedInt.WriteTo`).  The catch-all arm is
unreachable for arguments below ten. -/
def digitChar : Nat → Char
  | 0 => '0'
  | 1 => '1'
  | 2 => '2'
  | 3 => '3'
  | 4 => '4'
  | 5 => '5'
  | 6 => '6'
  | 7 => '7'
  | 8 => '8'
  | 9 => '9'
  | _ => '*'

/-- Fuelled most-significant-first decimal digit expansion; the fuel is
always at least the number of digits. -/
def natDigitsAux : Nat → Nat → List Char
  | 0, _ => []
  | fuel + 1, n =>
    if n < 10 then [digitChar n]
    else natDigitsAux fuel (n / 10) ++ [digitChar (n % 10)]

/-- Decimal rendering of a natural number, most significant digit first. -/
def natDigits (n : Nat) : List Char :=
  natDigitsAux (n + 1) n

/-- Decimal rendering of a 64-bit integer, as produced by the Go
routine `strconv.AppendInt(buf, i, 10)`. -/
def intBytes (i : Int) : List Char :=
  if i < 0 then '-' :: natDigits i.natAbs else natDigits i.toNat

/-- Modelled from the spec: float fields are rendered with the Go standard
library routine `strconv.AppendFloat` in shortest round-trip decimal
form ("floats use shortest-roundtrip decimal"); that routine lives in
the Go standard library, outside this repository.  A `Float` field set
from a decimal literal of at most fifteen significant digits renders
back as exactly that decimal, so the model stores the decimal itself:
the value is `mantissa / 10 ^ fracDigits`, kept with no trailing zero in
the fraction. -/
structure GoFloat where
  mantissa : Int
  fracDigits : Nat
deriving DecidableEq

/-- Fixed-point decimal rendering of a `GoFloat` (Go fixed format, letter f, with
precision -1). -/
def GoFloat.bytes (f : GoFloat) : List Char :=
  let digits := natDigits f.mantissa.natAbs
  let digits :=
    if digits.length < f.fracDigits + 1 then
      List.replicate (f.fracDigits + 1 - digits.length) '0' ++ digits
    else digits
  let intPart := digits.take (digits.length - f.fracDigits)
  let fracPart := digits.drop (digits.length - f.fracDigits)
  (if f.mantissa < 0 then ['-'] else []) ++ intPart
    ++ (if f.fracDigits = 0 then [] else ['.'] ++ fracPart)

/-- The `stringEscaper` replacer of src/unnamed/part_010:587: each double
quote is prefixed with a backslash. -/
def stringEscape : List Char → List Char
  | [] => []
  | c :: rest =>
    if c = '"' then '\\' :: '"' :: stringEscape rest
    else c :: stringEscape rest

/-- `String.Set` of src/unnamed/part_010:595-601: the value is truncated
to 64000 bytes, escaped, and stored already wrapped in double quotes. -/
def goStringSet (s : List Char) : List Char :=
  ['"'] ++ stringEscape (s.take 64000) ++ ['"']

/-- Field values (src/unnamed/part_010): the four InfluxDB field
variants.  A `String` field stores its pre-escaped, pre-quoted bytes. -/
inductive Field
  | fbool (b : Bool)
  | fint (n : Int)
  | ffloat (f : GoFloat)
  | fstr (stored : List Char)
deriving DecidableEq

/-- On-wire bytes of a field value: `fixedBool.WriteTo` emits `T`/`F`,
`fixedInt.WriteTo` emits the decimal with an `i` suffix,
`fixedFloat.WriteTo` the shortest decimal, and `String.WriteTo` the
stored quoted bytes (src/unnamed/part_010:664-712). -/
def Field.bytes : Field → List Char
  | .fbool b => if b then ['T'] else ['F']
  | .fint n => intBytes n ++ ['i']
  | .ffloat f => f.bytes
  | .fstr stored => stored

/-- `Field.Dup`: produces an independent copy carrying the same sample;
at the level of values this is the identity. -/
def Field.dup (f : Field) : Field := f

/-- Go map lookup on the association-list model (first matching key). -/
def alookup {α : Type} : List (GoStr × α) → GoStr → Option α
  | [], _ => none
  | (k, v) :: rest, key => if k = key then some v else alookup rest key

/-- Go map assignment `m[key] = v`: replace the binding if the key is
present, otherwise add it. -/
def aset {α : Type} : List (GoStr × α) → GoStr → α → List (GoStr × α)
  | [], key, v => [(key, v)]
  | (k, v') :: rest, key, v =>
    if k = key then (k, v) :: rest else (k, v') :: aset rest key v

/-- Go map deletion `delete(m, key)`. -/
def adel {α : Type} : List (GoStr × α) → GoStr → List (GoStr × α)
  | [], _ => []
  | (k, v) :: rest, key => if k = key then rest else (k, v) :: adel rest key

/-- The key set of a Go map, in representation order. -/
def keys {α : Type} (m : List (GoStr × α)) : List GoStr :=
  m.map Prod.fst

/-- `sort.Strings`: ascending byte-order sort of the collected names.
Any comparison sort agrees on lists of distinct names (the only inputs a
Go map can produce), so insertion sort is a faithful model. -/
def sortStrings (l : List GoStr) : List GoStr :=
  List.insertionSort (· ≤ ·) l

/-- The `tempBuffer` of src/write.go:22-26 wrapping a `bytes.Buffer`:
`head` is the length the underlying buffer had when the writer handle
was created. -/
structure TempBuffer where
  content : List Char
  head : Nat
deriving DecidableEq

/-- `Buffer.Len`. -/
def TempBuffer.len (b : TempBuffer) : Nat := b.content.length

/-- `Buffer.WriteString`. -/
def TempBuffer.writeString (b : TempBuffer) (s : List Char) : TempBuffer :=
  ⟨b.content ++ s, b.head⟩

/-- `Buffer.WriteByte`. -/
def TempBuffer.writeChar (b : TempBuffer) (c : Char) : TempBuffer :=
  ⟨b.content ++ [c], b.head⟩

/-- `Buffer.Truncate`. -/
def TempBuffer.truncate (b : TempBuffer) (n : Nat) : TempBuffer :=
  ⟨b.content.take n, b.head⟩

/-- `writeTags` of src/write.go:132-140: every tag, present or not, is
preceded by a comma; name and value are escaped.  A missing name yields
the empty Go string. -/
def writeTagsBuf (tags : List (GoStr × GoStr)) : TempBuffer → List GoStr → TempBuffer
  | buf, [] => buf
  | buf, name :: rest =>
    writeTagsBuf tags
      ((((buf.writeChar ',').writeString (tagEscape name)).writeChar
          '=').writeString (tagEscape ((alookup tags name).getD [])))
      rest

/-- The bytes contributed by `writeTags` for a given name list. -/
def tagsBytes (tags : List (GoStr × GoStr)) : List GoStr → List Char
  | [] => []
  | name :: rest =>
    [','] ++ tagEscape name ++ ['=']
      ++ tagEscape ((alookup tags name).getD []) ++ tagsBytes tags rest

/-- Bytes of one field binding as written by `writeFields`
(src/write.go:108-130): escaped name, equals sign, field bytes.  The
`none` arm is unreachable at call sites (a missing name would be a nil
`Field` in Go); it contributes nothing. -/
def fieldBytesD : Option Field → List Char
  | none => []
  | some f => f.bytes

/-- One `name=value` unit of the field section. -/
def fieldPair (fields : List (GoStr × Field)) (name : GoStr) : List Char :=
  tagEscape name ++ ['='] ++ fieldBytesD (alookup fields name)

/-- Field units after the first, each preceded by a comma. -/
def fieldsTail (fields : List (GoStr × Field)) : List GoStr → List Char
  | [] => []
  | n :: rest => [','] ++ fieldPair fields n ++ fieldsTail fields rest

/-- The bytes contributed by `writeFields` for a non-empty name list:
the first unit bare, later units comma-separated. -/
def fieldsBytes (fields : List (GoStr × Field)) : List GoStr → List Char
  | [] => []
  | n :: rest => fieldPair fields n ++ fieldsTail fields rest

/-- Loop body of `writeFields` (src/write.go:113-127): a comma before
every unit except the first. -/
def writeFieldsGo (fields : List (GoStr × Field)) : TempBuffer → Bool → List GoStr → TempBuffer
  | buf, _, [] => buf
  | buf, isFirst, name :: rest =>
    let b1 := if isFirst then buf else buf.writeChar ','
    let b2 := (b1.writeString (tagEscape name)).writeChar '='
    let b3 := b2.writeString (fieldBytesD (alookup fields name))
    writeFieldsGo fields b3 false rest

/-- `writeFields` of src/write.go:108-130: an empty name list reports
`ErrNoFields` before writing anything; field writes themselves cannot
fail for the four built-in variants. -/
def writeFields (buf : TempBuffer) (fields : List (GoStr × Field))
    (names : List GoStr) : Except DagrError TempBuffer :=
  if names.length = 0 then .error .noFields
  else .ok (writeFieldsGo fields buf true names)

/-- A measurement on the generic (non-`io.WriterTo`) path of
`WriteMeasurement` (src/write.go:183-246), such as `dagr.RawPoint`
(src/unnamed/part_009): key, tag map, field map, and the timestamp in
Unix nanoseconds.  `GetTime` resolves a zero time to the process clock
before this point, so `time` is the resolved instant. -/
structure RawMeasurement where
  key : GoStr
  tags : List (GoStr × GoStr)
  fields : List (GoStr × Field)
  time : Int
deriving DecidableEq

/-- The body of `WriteMeasurement` (src/write.go:183-246) acting on the
temp buffer: reject empty field maps, write the escaped key, the sorted
tags (when any), a space, the sorted fields, a space, the decimal
timestamp, and a newline; a field-section error truncates back to the
head.  The reported count is the bytes past the head (the same-buffer
`WriteTo` of src/write.go:31-52). -/
def writeMeasurementCore (buf : TempBuffer) (m : RawMeasurement) :
    TempBuffer × Int × Option DagrError :=
  let head := buf.len
  if m.fields.length = 0 then (buf, 0, some .noFields)
  else
    let b := buf.writeString (tagEscape m.key)
    let b :=
      if 0 < m.tags.length then writeTagsBuf m.tags b (sortStrings (keys m.tags))
      else b
    let b := b.writeChar ' '
    match writeFields b m.fields (sortStrings (keys m.fields)) with
    | .error e => (b.truncate head, 0, some e)
    | .ok b2 =>
      let b3 := ((b2.writeChar ' ').writeString (intBytes m.time)).writeChar '\n'
      (b3, (b3.len : Int) - (head : Int), none)

/-- The single line appended by a successful `WriteMeasurement`: escaped
key, tags in ascending name order, one space, fields in ascending name
order, one space, decimal Unix-nanosecond timestamp, newline. -/
def measurementLine (m : RawMeasurement) : List Char :=
  tagEscape m.key
    ++ tagsBytes m.tags (sortStrings (keys m.tags))
    ++ [' '] ++ fieldsBytes m.fields (sortStrings (keys m.fields))
    ++ [' '] ++ intBytes m.time ++ ['\n']

/-- `WriteMeasurement(w, m)` where `w` is a `bytes.Buffer` holding `w`
(the unowned-buffer path of `getBuffer`, src/write.go:72-89): final
contents of `w`, the reported count, and the error. -/
def writeMeasurementBuf (w : List Char) (m : RawMeasurement) :
    List Char × Int × Option DagrError :=
  let r := writeMeasurementCore ⟨w, w.length⟩ m
  (r.1.content, r.2.1, r.2.2)

/-- Loop of `WriteMeasurements` (src/write.go:156-165): remember the
per-measurement head, truncate back to it on `ErrNoFields`, abort (after
truncating to the buffer head) on any other error. -/
def writeMeasurementsLoop : TempBuffer → List RawMeasurement → TempBuffer × Option DagrError
  | buf, [] => (buf, none)
  | buf, m :: rest =>
    let head := buf.len
    let r := writeMeasurementCore buf m
    match r.2.2 with
    | some DagrError.noFields => writeMeasurementsLoop (r.1.truncate head) rest
    | some e => (r.1.truncate r.1.head, some e)
    | none => writeMeasurementsLoop r.1 rest

/-- `WriteMeasurements(w, ms...)` (src/write.go:148-172) for a generic
downstream writer `w` (owned pooled buffer, head 0).  The first
component lists the `Write` calls made on `w`: the final `WriteTo`
writes once, and not at all when the net output is empty. -/
def writeMeasurements (ms : List RawMeasurement) :
    List (List Char) × Int × Option DagrError :=
  if ms.length = 0 then ([], 0, none)
  else
    let r := writeMeasurementsLoop ⟨[], 0⟩ ms
    match r.2 with
    | some e => ([], 0, some e)
    | none =>
      if r.1.len = r.1.head then ([], 0, none)
      else ([r.1.content], (r.1.len : Int), none)

/-- Days from the Unix epoch to a civil date (the Hinnant civil-calendar
algorithm), used to express the fixed test clock of
src/unnamed/part_002 as an explicit computation. -/
def daysFromCivil (y : Int) (m d : Nat) : Int :=
  let y : Int := if m ≤ 2 then y - 1 else y
  let era : Int := (if 0 ≤ y then y else y - 399) / 400
  let yoe : Int := y - era * 400
  let mp : Nat := if 2 < m then m - 3 else m + 9
  let doy : Int := (153 * (mp : Int) + 2) / 5 + (d : Int) - 1
  let doe : Int := yoe * 365 + yoe / 4 - yoe / 100 + doy
  era * 146097 + doe - 719468

/-- The fixed test clock `2006-01-02T15:04:05Z` in Unix nanoseconds
(src/unnamed/part_002: `testTime.UnixNano()`). -/
def testTimeStamp : Int :=
  (daysFromCivil 2006 1 2 * 86400 + (15 * 3600 + 4 * 60 + 5)) * 1000000000

/-- `sort.SearchStrings(slice, str)` on a sorted slice: the least index
whose element is not below `str`. -/
def searchStrings (slice : List GoStr) (str : GoStr) : Nat :=
  (slice.takeWhile (fun s => decide (s < str))).length

/-- `insertOrderedString` of src/unnamed/part_008:437-447: insert `str`
at the position found by `sort.SearchStrings`, or append when the search
runs off the end. -/
def insertOrderedString (slice : List GoStr) (str : GoStr) : List GoStr :=
  let idx := searchStrings slice str
  if idx < slice.length then slice.take idx ++ [str] ++ slice.drop idx
  else slice ++ [str]

/-- The removal loop of `Point.RemoveTag` / `Point.RemoveField`
(src/unnamed/part_008:415-421, 489-495): drop the first occurrence of
`name`, shifting the rest left. -/
def removeFirst : List GoStr → GoStr → List GoStr
  | [], _ => []
  | x :: rest, name => if x = name then rest else x :: removeFirst rest name

/-- `dagr.Point` (src/unnamed/part_008:256-263): key, the two parallel
sorted name lists, and the tag / field maps. -/
structure Point where
  key : GoStr
  tagOrder : List GoStr
  fieldOrder : List GoStr
  tags : List (GoStr × GoStr)
  fields : List (GoStr × Field)
deriving DecidableEq

/-- `Point.addTag` (src/unnamed/part_008:375-382): store the value; a
fresh name is also inserted into the ordered name list. -/
def Point.addTag (p : Point) (name value : GoStr) : Point :=
  let present := (alookup p.tags name).isSome
  let p1 : Point := { p with tags := aset p.tags name value }
  if present then p1
  else { p1 with tagOrder := insertOrderedString p1.tagOrder name }

/-- `Point.RemoveTag` (src/unnamed/part_008:399-422): no-op on an empty
name or a missing tag, otherwise delete from the map and the list. -/
def Point.removeTag (p : Point) (name : GoStr) : Point :=
  if name = [] then p
  else if (alookup p.tags name).isSome then
    { p with tags := adel p.tags name, tagOrder := removeFirst p.tagOrder name }
  else p

/-- `Point.SetTag` (src/unnamed/part_008:384-397): empty name is a
no-op, empty value removes the tag, otherwise add it. -/
def Point.setTag (p : Point) (name value : GoStr) : Point :=
  if name = [] then p
  else if value = [] then p.removeTag name
  else p.addTag name value

/-- `Point.addField` (src/unnamed/part_008:449-456). -/
def Point.addField (p : Point) (name : GoStr) (value : Field) : Point :=
  let present := (alookup p.fields name).isSome
  let p1 : Point := { p with fields := aset p.fields name value }
  if present then p1
  else { p1 with fieldOrder := insertOrderedString p1.fieldOrder name }

/-- `Point.RemoveField` (src/unnamed/part_008:473-496). -/
def Point.removeField (p : Point) (name : GoStr) : Point :=
  if name = [] then p
  else if (alookup p.fields name).isSome then
    { p with fields := adel p.fields name,
             fieldOrder := removeFirst p.fieldOrder name }
  else p

/-- `Point.SetField` (src/unnamed/part_008:458-471): empty name is a
no-op, a nil value removes the field, otherwise add it. -/
def Point.setField (p : Point) (name : GoStr) (value : Option Field) : Point :=
  if name = [] then p
  else
    match value with
    | none => p.removeField name
    | some v => p.addField name v

/-- `NewPoint` (src/unnamed/part_008:269-289): an empty key is a panic
(modelled as `none`); tags and fields are installed through `addTag` and
`addField`. -/
def newPoint (key : GoStr) (tags : List (GoStr × GoStr))
    (fields : List (GoStr × Field)) : Option Point :=
  if key = [] then none
  else
    let p0 : Point := ⟨key, [], [], [], []⟩
    let p1 := tags.foldl (fun p kv => p.addTag kv.1 kv.2) p0
    some (fields.foldl (fun p kv => p.addField kv.1 kv.2) p1)

/-- `Point.WriteTo` (src/unnamed/part_008:293-315) on the temp buffer:
escaped key, tags in `tagOrder`, a space, fields in `fieldOrder` (an
empty order list reports `ErrNoFields` and truncates back to the head),
a space, the clock timestamp, a newline. -/
def pointWriteToCore (buf : TempBuffer) (p : Point) (now : Int) :
    TempBuffer × Int × Option DagrError :=
  let head := buf.len
  let b := buf.writeString (tagEscape p.key)
  let b := writeTagsBuf p.tags b p.tagOrder
  let b := b.writeChar ' '
  match writeFields b p.fields p.fieldOrder with
  | .error e => (b.truncate head, 0, some e)
  | .ok b2 =>
    let b3 := ((b2.writeChar ' ').writeString (intBytes now)).writeChar '\n'
    (b3, (b3.len : Int) - (head : Int), none)

/-- `WriteMeasurement(w, p)` for a `*Point` (which implements
`io.WriterTo`, so src/write.go:187-193 delegates to `Point.WriteTo`),
with `w` a `bytes.Buffer`: on success the outer same-buffer `WriteTo`
reports the bytes past the original length of `w`. -/
def writeMeasurementPoint (w : List Char) (p : Point) (now : Int) :
    List Char × Int × Option DagrError :=
  let r := pointWriteToCore ⟨w, w.length⟩ p now
  match r.2.2 with
  | some e => (r.1.content, r.2.1, some e)
  | none => (r.1.content, (r.1.len : Int) - (w.length : Int), none)

/-- The ordered-name-list invariant for one side of a `Point`: the list
is strictly sorted in ascending byte order (hence duplicate-free) and is
a permutation of the key set of the map. -/
def ordInv {α : Type} (order : List GoStr) (m : List (GoStr × α)) : Prop :=
  order.Sorted (· < ·) ∧ order.Perm (keys m)

instance {α : Type} (order : List GoStr) (m : List (GoStr × α)) :
    Decidable (ordInv order m) := by
  unfold ordInv
  infer_instance

/-- A `Point` is well-formed when both ordered name lists satisfy
`ordInv` against their maps. -/
def Point.wellFormed (p : Point) : Prop :=
  ordInv p.tagOrder p.tags ∧ ordInv p.fieldOrder p.fields

instance (p : Point) : Decidable p.wellFormed := by
  unfold Point.wellFormed
  infer_instance

/-- One mutation of a `Point`. -/
inductive PointOp
  | setTag (name value : GoStr)
  | removeTag (name : GoStr)
  | setField (name : GoStr) (value : Option Field)
  | removeField (name : GoStr)

/-- Dispatch one mutation. -/
def applyOp (p : Point) : PointOp → Point
  | .setTag n v => p.setTag n v
  | .removeTag n => p.removeTag n
  | .setField n v => p.setField n v
  | .removeField n => p.removeField n

/-- Apply a finite sequence of mutations in order. -/
def applyOps (p : Point) (ops : List PointOp) : Point :=
  ops.foldl applyOp p

/-- The task queue installed on a Proxy (src/unnamed/part_004:50-66):
either the no-limit queue whose begin and end never block, or a
`requestQueue` backed by `make(chan struct{}, capacity)`.  A negative
capacity makes `make` panic at runtime; capacity zero makes `begin`
block forever. -/
inductive TaskQueue
  | noRequestLimit
  | requestQueue (capacity : Int)
deriving DecidableEq

/-- `RequestLimit(n)` of src/unnamed/part_004:75-81: the queue that the
returned Option installs into a Proxy.  Transcribed exactly: the channel
is allocated when `n <= 0` and the no-limit queue is kept otherwise. -/
def RequestLimit (n : Int) : TaskQueue :=
  if n ≤ 0 then .requestQueue n else .noRequestLimit

/-- Errors seen by the retry loop: `context.Canceled`, a deadline, or a
sender error. -/
inductive GoErr
  | canceled
  | deadline
  | sendErr (code : Nat)
deriving DecidableEq

/-- The environment of one `sendData` run (src/outflux/outflux.go:401-460),
resolving everything the loop observes externally: `ctxAtTop i` is what
`ctx.Err()` returns at the top of iteration `i`; `sendResult i` is the
`(retry, err)` pair of the `try` call in iteration `i`; `backoff` is the
configured delay function; `sleepInterrupted i` tells whether the
`ctx.Done()` arm of the backoff select fires in iteration `i`. -/
structure SendWorld where
  ctxAtTop : Nat → Option GoErr
  sendResult : Nat → Bool × Option GoErr
  backoff : Nat → Nat → Int
  sleepInterrupted : Nat → Bool

/-- The `retryLoop` of `sendData` (src/outflux/outflux.go:421-453) for
retry limit `K`, written with the remaining iteration count explicit
(`rem` plays `K + 1 - i`): returns the error `sendData` returns and the
number of `Sender.Send` calls made from iteration `i` on.  `acc` is the
error variable carried past the loop when iterations run out. -/
def sendDataGo (wld : SendWorld) (K : Nat) : Nat → Nat → Option GoErr → Option GoErr × Nat
  | 0, _, acc => (acc, 0)
  | rem + 1, i, _acc =>
    match wld.ctxAtTop i with
    | some e => (some e, 0)
    | none =>
      match wld.sendResult i with
      | (_, none) => (none, 1)
      | (retry, some e) =>
        if retry = false ∨ e = GoErr.canceled then (some e, 1)
        else if wld.backoff (i + 1) K ≤ 0 then
          let r := sendDataGo wld K rem (i + 1) (some e)
          (r.1, r.2 + 1)
        else if wld.sleepInterrupted i then (some e, 1)
        else
          let r := sendDataGo wld K rem (i + 1) (some e)
          (r.1, r.2 + 1)

/-- `Proxy.sendData(ctx, data, retries)`: the loop runs iterations
`0 .. K` (at most `K + 1`). -/
def sendData (wld : SendWorld) (K : Nat) : Option GoErr × Nat :=
  sendDataGo wld K (K + 1) 0 none

/-- Outcome of the nil-context prologue of a Proxy entry point. -/
inductive CtxOutcome
  | panicked
  | proceeded (logged : Bool) (substituted : Bool)
deriving DecidableEq

/-- The prologue of `Proxy.flushWithCapacity`
(src/outflux/outflux.go:348-352): a nil context is logged and replaced
by `context.TODO()`; the call proceeds. -/
def flushWithCapacityCtx : Option Unit → CtxOutcome
  | none => .proceeded true true
  | some _ => .proceeded false false

/-- The prologue of `Proxy.Start` (src/outflux/outflux.go:262-265): a
nil context panics. -/
def startCtxCheck : Option Unit → CtxOutcome
  | none => .panicked
  | some _ => .proceeded false false

/-- Result of a Go computation that may panic. -/
inductive GoResult (α : Type)
  | ok (v : α)
  | panicked
deriving DecidableEq

/-- `Tags.Dup` (src/unnamed/part_008:199-210): nil in, nil out;
otherwise a copied map. -/
def tagsDup : Option (List (GoStr × GoStr)) → Option (List (GoStr × GoStr))
  | none => none
  | some m => some m

/-- `Fields.Dup(deep)` (src/unnamed/part_008:214-229): nil in, nil out;
otherwise a copied map, duplicating each field when `deep`. -/
def fieldsDup (deep : Bool) : Option (List (GoStr × Field)) → Option (List (GoStr × Field))
  | none => none
  | some m => some (m.map (fun kv => (kv.1, if deep then kv.2.dup else kv.2)))

/-- `dagr.StaticPointAllocator` (src/adder.go:71-80).  `none` stands for
a nil Go map. -/
structure StaticPointAllocator where
  Key : GoStr
  Tags : Option (List (GoStr × GoStr))
  Fields : Option (List (GoStr × Field))
  IdentifierTag : GoStr
  IdentifierField : GoStr

/-- `StaticPointAllocator.AllocatePoint` (src/adder.go:82-103),
transcribed exactly.  With a non-empty `IdentifierTag` the code first
replaces a nil tag map with `make(Tags, 1)` but then overwrites that
with `s.Tags.Dup()` — which is nil again whenever `s.Tags` is nil — and
assigns into it; assignment into a nil Go map panics. -/
def StaticPointAllocator.allocatePoint (s : StaticPointAllocator) (identifier : GoStr) :
    GoResult (GoStr × Option (List (GoStr × GoStr)) × Option (List (GoStr × Field))) :=
  let tags0 := s.Tags
  let tagsRes : GoResult (Option (List (GoStr × GoStr))) :=
    if s.IdentifierTag = [] then .ok tags0
    else
      -- if tags == nil { tags = make(Tags, 1) } — dead: the next line overwrites tags
      let tags2 := tagsDup s.Tags
      match tags2 with
      | none => .panicked
      | some m => .ok (some (aset m s.IdentifierTag identifier))
  match tagsRes with
  | .panicked => .panicked
  | .ok tags =>
    let fields0 := fieldsDup true s.Fields
    let fields : Option (List (GoStr × Field)) :=
      if s.IdentifierField = [] then fields0
      else
        let base := match fields0 with | none => [] | some mm => mm
        some (aset base s.IdentifierField (Field.fstr (goStringSet identifier)))
    .ok (s.Key, tags, fields)

/-- Tag map of end-to-end scenario 1 (src/measurement_test.go:100-145). -/
def scenarioTags : List (GoStr × GoStr) :=
  [("pid".data, "1234".data), ("host".data, "example.local".data)]

/-- Field map of end-to-end scenario 1: `value = Int 123`,
`depth = Float 123.456`, `on = Bool true`,
`msg = String "a \"string\" of sorts"`. -/
def scenarioFields : List (GoStr × Field) :=
  [("value".data, Field.fint 123),
   ("depth".data, Field.ffloat ⟨123456, 3⟩),
   ("on".data, Field.fbool true),
   ("msg".data, Field.fstr (goStringSet ("a \"string\" of sorts").data))]

/-- The point `NewPoint("service.some_event", scenarioTags,
scenarioFields)` evaluates to. -/
def scenarioPoint : Point :=
  ⟨"service.some_event".data,
   ["host".data, "pid".data],
   ["depth".data, "msg".data, "on".data, "value".data],
   scenarioTags,
   scenarioFields⟩

/-- The line required by `TestCompiledPoint`
(src/measurement_test.go:101). -/
def expectedScenarioLine : String :=
  "service.some_event,host=example.local,pid=1234 depth=123.456,msg=\"a \\\"string\\\" of sorts\",on=T,value=123i 1136214245000000000\n"

/-- A small concrete measurement used to instantiate universal encoder
theorems. -/
def c2m : RawMeasurement :=
  ⟨"k".data, [("b".data, "v".data)], [("a".data, Field.fint 1)], 5⟩

/-- A concrete retry-loop environment: the context reports cancellation
from iteration 1 on, every send fails retryably, backoff is zero. -/
def c4world : SendWorld :=
  ⟨fun i => if 1 ≤ i then some GoErr.deadline else none,
   fun _ => (true, some (GoErr.sendErr 7)),
   fun _ _ => 0,
   fun _ => false⟩

set_option maxRecDepth 100000

/-! ## Escaping lemmas -/

theorem tagEscape_nil_iff (s : List Char) : tagEscape s = [] ↔ s = [] := by
  cases s with
  | nil => simp [tagEscape]
  | cons c rest =>
    simp only [tagEscape]
    split <;> simp

theorem tagEscape_head_not_special (s : List Char) (d : Char) (t : List Char)
    (h : tagEscape s = d :: t) : isTagSpecial d = false := by
  cases s with
  | nil => simp [tagEscape] at h
  | cons c rest =>
    simp only [tagEscape] at h
    by_cases hc : isTagSpecial c = true
    · simp [hc] at h
      obtain ⟨hd, -⟩ := h
      subst hd
      decide
    · simp [hc] at h
      obtain ⟨hd, -⟩ := h
      subst hd
      simpa using hc

/-- C8: applying the tag escaper and then the corresponding unescaper
yields the original byte string again, for every byte string — including
strings that already contain backslashes. -/
theorem tagUnescape_tagEscape (s : List Char) :
    tagUnescape (tagEscape s) = s := by
  induction s with
  | nil => simp [tagEscape, tagUnescape]
  | cons c rest ih =>
    by_cases hc : isTagSpecial c = true
    · have hstep : tagEscape (c :: rest) = '\\' :: c :: tagEscape rest := by
        simp [tagEscape, hc]
      rw [hstep]
      simp only [tagUnescape]
      rw [if_pos (by simp [hc]), ih]
    · have hcf : isTagSpecial c = false := by simpa using hc
      have hstep : tagEscape (c :: rest) = c :: tagEscape rest := by
        simp [tagEscape, hcf]
      rw [hstep]
      cases hrest : tagEscape rest with
      | nil =>
        have : rest = [] := (tagEscape_nil_iff rest).mp hrest
        subst this
        simp [tagUnescape]
      | cons d t =>
        have hd : isTagSpecial d = false := tagEscape_head_not_special rest d t hrest
        simp only [tagUnescape]
        rw [if_neg (by simp [hd]), ← hrest, ih]

/-! ## Association-list lemmas -/

theorem keys_nil {α : Type} : keys ([] : List (GoStr × α)) = [] := rfl

theorem keys_cons {α : Type} (kv : GoStr × α) (m : List (GoStr × α)) :
    keys (kv :: m) = kv.1 :: keys m := rfl

theorem alookup_cons {α : Type} (k1 : GoStr) (v1 : α) (rest : List (GoStr × α))
    (key : GoStr) :
    alookup ((k1, v1) :: rest) key
      = if k1 = key then some v1 else alookup rest key := rfl

theorem alookup_isSome_iff_mem_keys {α : Type} (m : List (GoStr × α)) (k : GoStr) :
    (alookup m k).isSome ↔ k ∈ keys m := by
  induction m with
  | nil => simp [alookup, keys_nil]
  | cons kv rest ih =>
    obtain ⟨k1, v1⟩ := kv
    rw [alookup_cons, keys_cons, List.mem_cons]
    by_cases h : k1 = k
    · subst h
      simp
    · rw [if_neg h]
      simp only [ih]
      constructor
      · exact fun hm => Or.inr hm
      · rintro (rfl | hm)
        · exact absurd rfl h
        · exact hm

theorem keys_aset_present {α : Type} (m : List (GoStr × α)) (k : GoStr) (v : α)
    (h : (alookup m k).isSome) : keys (aset m k v) = keys m := by
  induction m with
  | nil => simp [alookup] at h
  | cons kv rest ih =>
    obtain ⟨k1, v1⟩ := kv
    by_cases hk : k1 = k
    · subst hk
      simp [aset, keys_cons]
    · rw [alookup_cons, if_neg hk] at h
      show keys (if k1 = k then (k1, v) :: rest else (k1, v1) :: aset rest k v) = _
      rw [if_neg hk, keys_cons, keys_cons, ih h]

theorem keys_aset_fresh {α : Type} (m : List (GoStr × α)) (k : GoStr) (v : α)
    (h : alookup m k = none) : keys (aset m k v) = keys m ++ [k] := by
  induction m with
  | nil => simp [aset, keys]
  | cons kv rest ih =>
    obtain ⟨k1, v1⟩ := kv
    by_cases hk : k1 = k
    · subst hk
      rw [alookup_cons, if_pos rfl] at h
      exact absurd h (by simp)
    · rw [alookup_cons, if_neg hk] at h
      show keys (if k1 = k then (k1, v) :: rest else (k1, v1) :: aset rest k v) = _
      rw [if_neg hk, keys_cons, keys_cons, ih h]
      rfl

theorem keys_adel {α : Type} (m : List (GoStr × α)) (k : GoStr) :
    keys (adel m k) = List.eraseP (fun x => decide (x = k)) (keys m) := by
  induction m with
  | nil => simp [adel, keys_nil]
  | cons kv rest ih =>
    obtain ⟨k1, v1⟩ := kv
    by_cases hk : k1 = k
    · subst hk
      show keys (if k1 = k1 then rest else (k1, v1) :: adel rest k1) = _
      rw [if_pos rfl, keys_cons, List.eraseP_cons]
      simp
    · show keys (if k1 = k then rest else (k1, v1) :: adel rest k) = _
      rw [if_neg hk, keys_cons, keys_cons, List.eraseP_cons]
      simp [hk, ih]

theorem alookup_adel_self {α : Type} (m : List (GoStr × α)) (k : GoStr)
    (hnd : (keys m).Nodup) : alookup (adel m k) k = none := by
  induction m with
  | nil => simp [adel, alookup]
  | cons kv rest ih =>
    obtain ⟨k1, v1⟩ := kv
    rw [keys_cons, List.nodup_cons] at hnd
    by_cases hk : k1 = k
    · subst hk
      show alookup (if k1 = k1 then rest else (k1, v1) :: adel rest k1) k1 = none
      rw [if_pos rfl]
      cases h : alookup rest k1 with
      | none => rfl
      | some v =>
        exfalso
        exact hnd.1 ((alookup_isSome_iff_mem_keys rest k1).mp (by simp [h]))
    · show alookup (if k1 = k then rest else (k1, v1) :: adel rest k) k = none
      rw [if_neg hk, alookup_cons, if_neg hk, ih hnd.2]

theorem alookup_mem {α : Type} (m : List (GoStr × α)) (k : GoStr) (v : α)
    (h : alookup m k = some v) : (k, v) ∈ m := by
  induction m with
  | nil => simp [alookup] at h
  | cons kv rest ih =>
    obtain ⟨k1, v1⟩ := kv
    by_cases hk : k1 = k
    · subst hk
      rw [alookup_cons, if_pos rfl, Option.some.injEq] at h
      subst h
      exact List.mem_cons_self _ _
    · rw [alookup_cons, if_neg hk] at h
      exact List.mem_cons_of_mem _ (ih h)

/-! ## Ordered-insertion lemmas -/

theorem searchStrings_cons (x : GoStr) (rest : List GoStr) (str : GoStr) :
    searchStrings (x :: rest) str
      = if x < str then searchStrings rest str + 1 else 0 := by
  unfold searchStrings
  rw [List.takeWhile_cons]
  by_cases h : x < str
  · simp [h]
  · simp [h]

theorem searchStrings_le_length (slice : List GoStr) (str : GoStr) :
    searchStrings slice str ≤ slice.length :=
  (List.takeWhile_sublist _).length_le

theorem insertOrderedString_eq (slice : List GoStr) (str : GoStr) :
    insertOrderedString slice str = List.orderedInsert (· ≤ ·) str slice := by
  induction slice with
  | nil => simp [insertOrderedString, searchStrings, List.orderedInsert]
  | cons x rest ih =>
    unfold insertOrderedString
    rw [searchStrings_cons]
    by_cases h : x < str
    · rw [if_pos h]
      simp only [List.orderedInsert]
      rw [if_neg (not_le.mpr h)]
      rcases Nat.lt_or_ge (searchStrings rest str) rest.length with hlt | hge
      · rw [if_pos (by simpa using Nat.succ_lt_succ hlt)]
        rw [← ih]
        unfold insertOrderedString
        rw [if_pos hlt]
        simp
      · have heq : searchStrings rest str = rest.length :=
          le_antisymm (searchStrings_le_length rest str) hge
        rw [heq, if_neg (by simp)]
        rw [← ih]
        unfold insertOrderedString
        rw [heq, if_neg (lt_irrefl _)]
        simp
    · rw [if_neg h, if_pos (by simp)]
      simp only [List.orderedInsert]
      rw [if_pos (not_lt.mp h)]
      simp

theorem removeFirst_eq_eraseP (l : List GoStr) (name : GoStr) :
    removeFirst l name = List.eraseP (fun x => decide (x = name)) l := by
  induction l with
  | nil => rfl
  | cons x rest ih =>
    by_cases hx : x = name
    · subst hx
      rw [show removeFirst (x :: rest) x = rest from by simp [removeFirst],
        List.eraseP_cons]
      simp
    · rw [show removeFirst (x :: rest) name = x :: removeFirst rest name from by
          simp [removeFirst, hx],
        List.eraseP_cons]
      simp [hx, ih]

theorem removeFirst_sublist (l : List GoStr) (name : GoStr) :
    List.Sublist (removeFirst l name) l := by
  rw [removeFirst_eq_eraseP]
  exact List.eraseP_sublist _

theorem not_mem_removeFirst_self (l : List GoStr) (name : GoStr)
    (hnd : l.Nodup) : name ∉ removeFirst l name := by
  induction l with
  | nil => simp [removeFirst]
  | cons x rest ih =>
    rw [List.nodup_cons] at hnd
    by_cases hx : x = name
    · subst hx
      rw [show removeFirst (x :: rest) x = rest from by simp [removeFirst]]
      exact hnd.1
    · rw [show removeFirst (x :: rest) name = x :: removeFirst rest name from by
        simp [removeFirst, hx]]
      intro hmem
      rcases List.mem_cons.mp hmem with h | h
      · exact hx h.symm
      · exact ih hnd.2 h

/-! ## The ordered-name-list invariant is preserved -/

theorem sorted_lt_of_le_nodup (l : List GoStr) (hs : l.Sorted (· ≤ ·))
    (hn : l.Nodup) : l.Sorted (· < ·) :=
  (hs.and hn).imp fun h => lt_of_le_of_ne h.1 h.2

theorem ordInv_insert {α : Type} (order : List GoStr) (m : List (GoStr × α))
    (h : ordInv order m) (k : GoStr) (v : α) (hfresh : alookup m k = none) :
    ordInv (insertOrderedString order k) (aset m k v) := by
  obtain ⟨hs, hp⟩ := h
  have hknotin : k ∉ order := by
    intro hmem
    have h1 : k ∈ keys m := hp.mem_iff.mp hmem
    have h2 : (alookup m k).isSome := (alookup_isSome_iff_mem_keys m k).mpr h1
    rw [hfresh] at h2
    simp at h2
  constructor
  · rw [insertOrderedString_eq]
    have hsle : (List.orderedInsert (· ≤ ·) k order).Sorted (· ≤ ·) :=
      List.Sorted.orderedInsert k order (hs.imp fun h => le_of_lt h)
    have hnd : (List.orderedInsert (· ≤ ·) k order).Nodup :=
      ((List.perm_orderedInsert _ _ _).nodup_iff).mpr
        ((List.nodup_cons).mpr ⟨hknotin, hs.imp fun h => ne_of_lt h⟩)
    exact sorted_lt_of_le_nodup _ hsle hnd
  · rw [insertOrderedString_eq, keys_aset_fresh m k v hfresh]
    exact ((List.perm_orderedInsert _ k order).trans (hp.cons k)).trans
      ((List.perm_append_singleton k (keys m)).symm)

theorem ordInv_present {α : Type} (order : List GoStr) (m : List (GoStr × α))
    (h : ordInv order m) (k : GoStr) (v : α) (hsome : (alookup m k).isSome) :
    ordInv order (aset m k v) := by
  refine ⟨h.1, ?_⟩
  rw [keys_aset_present m k v hsome]
  exact h.2

theorem ordInv_remove {α : Type} (order : List GoStr) (m : List (GoStr × α))
    (h : ordInv order m) (k : GoStr) :
    ordInv (removeFirst order k) (adel m k) := by
  obtain ⟨hs, hp⟩ := h
  constructor
  · exact hs.sublist (removeFirst_sublist order k)
  · rw [removeFirst_eq_eraseP, keys_adel]
    refine List.Perm.eraseP _ ?_ hp
    exact (hs.imp fun h => ne_of_lt h).imp fun hne ha hb =>
      hne (by rw [of_decide_eq_true ha, of_decide_eq_true hb])

/-! ## Point mutations preserve the invariant -/

theorem addTag_wellFormed (p : Point) (h : p.wellFormed) (name value : GoStr) :
    (p.addTag name value).wellFormed := by
  obtain ⟨ht, hf⟩ := h
  by_cases hp : (alookup p.tags name).isSome
  · have heq : p.addTag name value = { p with tags := aset p.tags name value } := by
      unfold Point.addTag
      rw [if_pos hp]
    rw [heq]
    exact ⟨ordInv_present _ _ ht _ _ hp, hf⟩
  · have hnone : alookup p.tags name = none := Option.not_isSome_iff_eq_none.mp hp
    have heq : p.addTag name value
        = { p with tags := aset p.tags name value,
                   tagOrder := insertOrderedString p.tagOrder name } := by
      unfold Point.addTag
      rw [if_neg hp]
    rw [heq]
    exact ⟨ordInv_insert _ _ ht _ _ hnone, hf⟩

theorem addField_wellFormed (p : Point) (h : p.wellFormed) (name : GoStr) (value : Field) :
    (p.addField name value).wellFormed := by
  obtain ⟨ht, hf⟩ := h
  by_cases hp : (alookup p.fields name).isSome
  · have heq : p.addField name value = { p with fields := aset p.fields name value } := by
      unfold Point.addField
      rw [if_pos hp]
    rw [heq]
    exact ⟨ht, ordInv_present _ _ hf _ _ hp⟩
  · have hnone : alookup p.fields name = none := Option.not_isSome_iff_eq_none.mp hp
    have heq : p.addField name value
        = { p with fields := aset p.fields name value,
                   fieldOrder := insertOrderedString p.fieldOrder name } := by
      unfold Point.addField
      rw [if_neg hp]
    rw [heq]
    exact ⟨ht, ordInv_insert _ _ hf _ _ hnone⟩

theorem removeTag_wellFormed (p : Point) (h : p.wellFormed) (name : GoStr) :
    (p.removeTag name).wellFormed := by
  unfold Point.removeTag
  by_cases hn : name = []
  · rw [if_pos hn]
    exact h
  · rw [if_neg hn]
    by_cases hp : (alookup p.tags name).isSome
    · rw [if_pos hp]
      exact ⟨ordInv_remove _ _ h.1 name, h.2⟩
    · rw [if_neg hp]
      exact h

theorem removeField_wellFormed (p : Point) (h : p.wellFormed) (name : GoStr) :
    (p.removeField name).wellFormed := by
  unfold Point.removeField
  by_cases hn : name = []
  · rw [if_pos hn]
    exact h
  · rw [if_neg hn]
    by_cases hp : (alookup p.fields name).isSome
    · rw [if_pos hp]
      exact ⟨h.1, ordInv_remove _ _ h.2 name⟩
    · rw [if_neg hp]
      exact h

theorem setTag_wellFormed (p : Point) (h : p.wellFormed) (name value : GoStr) :
    (p.setTag name value).wellFormed := by
  unfold Point.setTag
  by_cases hn : name = []
  · rw [if_pos hn]
    exact h
  · rw [if_neg hn]
    by_cases hv : value = []
    · rw [if_pos hv]
      exact removeTag_wellFormed p h name
    · rw [if_neg hv]
      exact addTag_wellFormed p h name value

theorem setField_wellFormed (p : Point) (h : p.wellFormed) (name : GoStr)
    (value : Option Field) : (p.setField name value).wellFormed := by
  unfold Point.setField
  by_cases hn : name = []
  · rw [if_pos hn]
    exact h
  · rw [if_neg hn]
    cases value with
    | none => exact removeField_wellFormed p h name
    | some v => exact addField_wellFormed p h name v

theorem applyOp_wellFormed (p : Point) (h : p.wellFormed) (op : PointOp) :
    (applyOp p op).wellFormed := by
  cases op with
  | setTag n v => exact setTag_wellFormed p h n v
  | removeTag n => exact removeTag_wellFormed p h n
  | setField n v => exact setField_wellFormed p h n v
  | removeField n => exact removeField_wellFormed p h n

theorem applyOps_wellFormed (p : Point) (h : p.wellFormed) (ops : List PointOp) :
    (applyOps p ops).wellFormed := by
  induction ops generalizing p with
  | nil => exact h
  | cons op rest ih => exact ih (applyOp p op) (applyOp_wellFormed p h op)

theorem foldl_addTag_wellFormed (l : List (GoStr × GoStr)) :
    ∀ p : Point, p.wellFormed →
      (l.foldl (fun p kv => p.addTag kv.1 kv.2) p).wellFormed := by
  induction l with
  | nil => exact fun p h => h
  | cons kv rest ih =>
    exact fun p h => ih (p.addTag kv.1 kv.2) (addTag_wellFormed p h kv.1 kv.2)

theorem foldl_addField_wellFormed (l : List (GoStr × Field)) :
    ∀ p : Point, p.wellFormed →
      (l.foldl (fun p kv => p.addField kv.1 kv.2) p).wellFormed := by
  induction l with
  | nil => exact fun p h => h
  | cons kv rest ih =>
    exact fun p h => ih (p.addField kv.1 kv.2) (addField_wellFormed p h kv.1 kv.2)

theorem newPoint_wellFormed (key : GoStr) (tags : List (GoStr × GoStr))
    (fields : List (GoStr × Field)) (p : Point)
    (h : newPoint key tags fields = some p) : p.wellFormed := by
  unfold newPoint at h
  by_cases hk : key = []
  · rw [if_pos hk] at h
    exact absurd h (by simp)
  · rw [if_neg hk] at h
    have hbase : (⟨key, [], [], [], []⟩ : Point).wellFormed :=
      ⟨⟨List.sorted_nil, List.Perm.nil⟩, ⟨List.sorted_nil, List.Perm.nil⟩⟩
    have := foldl_addField_wellFormed fields _
      (foldl_addTag_wellFormed tags ⟨key, [], [], [], []⟩ hbase)
    rw [Option.some.injEq] at h
    rw [← h]
    exact this

/-- C7: for every Point created by `NewPoint` and every finite sequence
of `SetTag`, `SetField`, `RemoveTag`, and `RemoveField` calls, the
`tagOrder` and `fieldOrder` lists remain strictly sorted in ascending
byte order and duplicate-free, and their elements are exactly the key
sets of the `tags` and `fields` maps respectively (`Point.wellFormed`). -/
theorem point_mutations_preserve_order (key : GoStr)
    (tags : List (GoStr × GoStr)) (fields : List (GoStr × Field)) (p : Point)
    (h : newPoint key tags fields = some p) (ops : List PointOp) :
    (applyOps p ops).wellFormed :=
  applyOps_wellFormed p (newPoint_wellFormed key tags fields p h) ops

/-- Witness for C7 at a concrete point and operation sequence. -/
theorem point_mutations_preserve_order_witness :
    newPoint "k".data [("b".data, "1".data)] [("f".data, Field.fint 1)]
        = some ⟨"k".data, ["b".data], ["f".data],
            [("b".data, "1".data)], [("f".data, Field.fint 1)]⟩ ∧
    (applyOps
      ⟨"k".data, ["b".data], ["f".data],
        [("b".data, "1".data)], [("f".data, Field.fint 1)]⟩
      [PointOp.setTag "a".data "2".data,
       PointOp.setField "g".data (some (Field.fbool true)),
       PointOp.removeField "f".data,
       PointOp.setTag "b".data []]).wellFormed :=
  ⟨by decide,
   point_mutations_preserve_order "k".data [("b".data, "1".data)]
     [("f".data, Field.fint 1)] _ (by decide) _⟩

/-- C10: calling `SetTag(n, "")` with a non-empty name `n` removes the
tag entirely — the call equals `RemoveTag(n)`, and afterwards `n` is
absent from the tag map and from the sorted tag-name list. -/
theorem setTag_empty_value_removes (p : Point) (n : GoStr) (hn : n ≠ [])
    (hwf : p.wellFormed) :
    p.setTag n [] = p.removeTag n ∧
    alookup (p.setTag n []).tags n = none ∧
    n ∉ (p.setTag n []).tagOrder := by
  have hnodupOrder : p.tagOrder.Nodup := hwf.1.1.imp fun h => ne_of_lt h
  have hnodupKeys : (keys p.tags).Nodup := (hwf.1.2.nodup_iff).mp hnodupOrder
  have heq : p.setTag n [] = p.removeTag n := by
    unfold Point.setTag
    rw [if_neg hn, if_pos rfl]
  refine ⟨heq, ?_, ?_⟩
  · rw [heq]
    unfold Point.removeTag
    rw [if_neg hn]
    by_cases hp : (alookup p.tags n).isSome
    · rw [if_pos hp]
      exact alookup_adel_self p.tags n hnodupKeys
    · rw [if_neg hp]
      exact Option.not_isSome_iff_eq_none.mp hp
  · rw [heq]
    unfold Point.removeTag
    rw [if_neg hn]
    by_cases hp : (alookup p.tags n).isSome
    · rw [if_pos hp]
      exact not_mem_removeFirst_self p.tagOrder n hnodupOrder
    · rw [if_neg hp]
      intro hmem
      exact hp ((alookup_isSome_iff_mem_keys p.tags n).mpr (hwf.1.2.mem_iff.mp hmem))

/-- Witness for C10 at a concrete point. -/
theorem setTag_empty_value_removes_witness :
    (⟨"k".data, ["a".data, "b".data], [],
        [("a".data, "1".data), ("b".data, "2".data)], []⟩ : Point).setTag "a".data []
        = (⟨"k".data, ["a".data, "b".data], [],
            [("a".data, "1".data), ("b".data, "2".data)], []⟩ : Point).removeTag "a".data ∧
    alookup ((⟨"k".data, ["a".data, "b".data], [],
        [("a".data, "1".data), ("b".data, "2".data)], []⟩ : Point).setTag "a".data []).tags
        "a".data = none ∧
    "a".data ∉ ((⟨"k".data, ["a".data, "b".data], [],
        [("a".data, "1".data), ("b".data, "2".data)], []⟩ : Point).setTag "a".data []).tagOrder :=
  setTag_empty_value_removes _ "a".data (by decide) (by decide)

/-! ## Encoder buffer lemmas -/

theorem writeTagsBuf_spec (tags : List (GoStr × GoStr)) (names : List GoStr) :
    ∀ buf : TempBuffer,
      writeTagsBuf tags buf names = ⟨buf.content ++ tagsBytes tags names, buf.head⟩ := by
  induction names with
  | nil => intro buf; simp [writeTagsBuf, tagsBytes]
  | cons name rest ih =>
    intro buf
    rw [show writeTagsBuf tags buf (name :: rest)
        = writeTagsBuf tags
            ((((buf.writeChar ',').writeString (tagEscape name)).writeChar
                '=').writeString (tagEscape ((alookup tags name).getD []))) rest from rfl]
    rw [ih]
    simp [TempBuffer.writeChar, TempBuffer.writeString, tagsBytes]

theorem writeFieldsGo_false_spec (fields : List (GoStr × Field)) (names : List GoStr) :
    ∀ buf : TempBuffer,
      writeFieldsGo fields buf false names
        = ⟨buf.content ++ fieldsTail fields names, buf.head⟩ := by
  induction names with
  | nil => intro buf; simp [writeFieldsGo, fieldsTail]
  | cons name rest ih =>
    intro buf
    rw [show writeFieldsGo fields buf false (name :: rest)
        = writeFieldsGo fields
            ((((buf.writeChar ',').writeString (tagEscape name)).writeChar
                '=').writeString (fieldBytesD (alookup fields name))) false rest from rfl]
    rw [ih]
    simp [TempBuffer.writeChar, TempBuffer.writeString, fieldsTail, fieldPair]

theorem writeFieldsGo_true_spec (fields : List (GoStr × Field)) (names : List GoStr)
    (buf : TempBuffer) :
    writeFieldsGo fields buf true names
      = ⟨buf.content ++ fieldsBytes fields names, buf.head⟩ := by
  cases names with
  | nil => simp [writeFieldsGo, fieldsBytes]
  | cons name rest =>
    rw [show writeFieldsGo fields buf true (name :: rest)
        = writeFieldsGo fields
            (((buf.writeString (tagEscape name)).writeChar
                '=').writeString (fieldBytesD (alookup fields name))) false rest from rfl]
    rw [writeFieldsGo_false_spec]
    simp [TempBuffer.writeChar, TempBuffer.writeString, fieldsBytes, fieldPair]

theorem length_sortStrings (l : List GoStr) :
    (sortStrings l).length = l.length :=
  (List.perm_insertionSort _ l).length_eq

theorem length_keys {α : Type} (m : List (GoStr × α)) :
    (keys m).length = m.length :=
  List.length_map m Prod.fst

theorem writeMeasurementCore_spec (buf : TempBuffer) (m : RawMeasurement)
    (hf : m.fields ≠ []) :
    writeMeasurementCore buf m
      = (⟨buf.content ++ measurementLine m, buf.head⟩,
         ((measurementLine m).length : Int), none) := by
  have hlen : ¬ m.fields.length = 0 := by simpa using hf
  have hnames : ¬ (sortStrings (keys m.fields)).length = 0 := by
    rw [length_sortStrings, length_keys]
    exact hlen
  have htagsnil : ¬ 0 < m.tags.length → tagsBytes m.tags (sortStrings (keys m.tags)) = [] := by
    intro ht
    have hnil : m.tags = [] :=
      List.eq_nil_of_length_eq_zero (Nat.eq_zero_of_not_pos ht)
    rw [hnil]
    rfl
  unfold writeMeasurementCore
  rw [if_neg hlen]
  by_cases ht : 0 < m.tags.length
  · simp only [writeFields, if_neg hnames, if_pos ht, writeTagsBuf_spec,
      writeFieldsGo_true_spec, TempBuffer.writeString, TempBuffer.writeChar,
      TempBuffer.len, measurementLine, Prod.mk.injEq, TempBuffer.mk.injEq]
    refine ⟨⟨?_, trivial⟩, ?_, trivial⟩
    · simp [List.append_assoc]
    · simp only [List.length_append, List.length_nil]
      push_cast
      ring
  · simp only [writeFields, if_neg hnames, if_neg ht, writeFieldsGo_true_spec,
      TempBuffer.writeString, TempBuffer.writeChar, TempBuffer.len,
      measurementLine, htagsnil ht, Prod.mk.injEq, TempBuffer.mk.injEq]
    refine ⟨⟨?_, trivial⟩, ?_, trivial⟩
    · simp [List.append_assoc]
    · simp only [List.length_append, List.length_nil]
      push_cast
      ring

/-! ## Newline-freedom lemmas -/

theorem nl_not_mem_tagEscape (s : List Char) (h : '\n' ∉ s) : '\n' ∉ tagEscape s := by
  induction s with
  | nil => simp [tagEscape]
  | cons c rest ih =>
    rw [List.mem_cons, not_or] at h
    have hrest := ih h.2
    simp only [tagEscape]
    by_cases hc : isTagSpecial c = true
    · rw [if_pos hc]
      intro hmem
      rcases List.mem_cons.mp hmem with h1 | hmem
      · exact absurd h1 (by decide)
      · rcases List.mem_cons.mp hmem with h2 | hmem
        · exact h.1 h2
        · exact hrest hmem
    · rw [if_neg hc]
      intro hmem
      rcases List.mem_cons.mp hmem with h1 | hmem
      · exact h.1 h1
      · exact hrest hmem

theorem digitChar_ne_nl (d : Nat) : digitChar d ≠ '\n' := by
  unfold digitChar
  split <;> decide

theorem nl_not_mem_natDigitsAux (fuel : Nat) : ∀ n : Nat, '\n' ∉ natDigitsAux fuel n := by
  induction fuel with
  | zero => intro n; simp [natDigitsAux]
  | succ fuel ih =>
    intro n
    simp only [natDigitsAux]
    by_cases h : n < 10
    · rw [if_pos h]
      intro hmem
      rcases List.mem_cons.mp hmem with h1 | h1
      · exact digitChar_ne_nl n h1.symm
      · simp at h1
    · rw [if_neg h]
      intro hmem
      rcases List.mem_append.mp hmem with h1 | h1
      · exact ih _ h1
      · rcases List.mem_cons.mp h1 with h2 | h2
        · exact digitChar_ne_nl _ h2.symm
        · simp at h2

theorem nl_not_mem_intBytes (i : Int) : '\n' ∉ intBytes i := by
  unfold intBytes natDigits
  by_cases h : i < 0
  · rw [if_pos h]
    intro hmem
    rcases List.mem_cons.mp hmem with h1 | h1
    · exact absurd h1 (by decide)
    · exact nl_not_mem_natDigitsAux _ _ h1
  · rw [if_neg h]
    exact nl_not_mem_natDigitsAux _ _

theorem nl_not_mem_tagsBytes (tags : List (GoStr × GoStr)) (names : List GoStr)
    (h : ∀ name ∈ names, '\n' ∉ name ∧ '\n' ∉ (alookup tags name).getD []) :
    '\n' ∉ tagsBytes tags names := by
  induction names with
  | nil => simp [tagsBytes]
  | cons name rest ih =>
    have hn := h name (List.mem_cons_self _ _)
    have hr := ih fun x hx => h x (List.mem_cons_of_mem _ hx)
    simp only [tagsBytes]
    intro hmem
    rcases List.mem_append.mp hmem with h1 | h1
    · rcases List.mem_append.mp h1 with h2 | h2
      · rcases List.mem_append.mp h2 with h3 | h3
        · rcases List.mem_append.mp h3 with h4 | h4
          · simp at h4
          · exact nl_not_mem_tagEscape _ hn.1 h4
        · simp at h3
      · exact nl_not_mem_tagEscape _ hn.2 h2
    · exact hr h1

theorem nl_not_mem_fieldPair (fields : List (GoStr × Field)) (name : GoStr)
    (h1 : '\n' ∉ name) (h2 : '\n' ∉ fieldBytesD (alookup fields name)) :
    '\n' ∉ fieldPair fields name := by
  simp only [fieldPair]
  intro hmem
  rcases List.mem_append.mp hmem with ha | ha
  · rcases List.mem_append.mp ha with hb | hb
    · exact nl_not_mem_tagEscape _ h1 hb
    · simp at hb
  · exact h2 ha

theorem nl_not_mem_fieldsTail (fields : List (GoStr × Field)) (names : List GoStr)
    (h : ∀ name ∈ names, '\n' ∉ name ∧ '\n' ∉ fieldBytesD (alookup fields name)) :
    '\n' ∉ fieldsTail fields names := by
  induction names with
  | nil => simp [fieldsTail]
  | cons name rest ih =>
    have hn := h name (List.mem_cons_self _ _)
    have hr := ih fun x hx => h x (List.mem_cons_of_mem _ hx)
    simp only [fieldsTail]
    intro hmem
    rcases List.mem_append.mp hmem with h1 | h1
    · rcases List.mem_append.mp h1 with h2 | h2
      · simp at h2
      · exact nl_not_mem_fieldPair fields name hn.1 hn.2 h2
    · exact hr h1

theorem nl_not_mem_fieldsBytes (fields : List (GoStr × Field)) (names : List GoStr)
    (h : ∀ name ∈ names, '\n' ∉ name ∧ '\n' ∉ fieldBytesD (alookup fields name)) :
    '\n' ∉ fieldsBytes fields names := by
  cases names with
  | nil => simp [fieldsBytes]
  | cons name rest =>
    have hn := h name (List.mem_cons_self _ _)
    simp only [fieldsBytes]
    intro hmem
    rcases List.mem_append.mp hmem with h1 | h1
    · exact nl_not_mem_fieldPair fields name hn.1 hn.2 h1
    · exact nl_not_mem_fieldsTail fields rest
        (fun x hx => h x (List.mem_cons_of_mem _ hx)) h1

/-- C2: a successful `WriteMeasurement` of a measurement with non-empty
fields appends to the buffer exactly one newline-terminated line: the
escaped key, the tags in ascending byte order of tag name, one space,
the fields in ascending byte order of field name, one space, and the
decimal Unix-nanosecond timestamp (`measurementLine`); under the
newline-freedom side conditions the appended bytes contain exactly one
newline, at the end.  In particular, for the fixed test clock
`2006-01-02T15:04:05Z` and the scenario-1 point, the output is exactly
the expected line of src/measurement_test.go:101. -/
theorem writeMeasurement_single_line (buf : TempBuffer) (m : RawMeasurement)
    (hf : m.fields ≠ [])
    (hkey : '\n' ∉ m.key)
    (htags : ∀ kv ∈ m.tags, '\n' ∉ kv.1 ∧ '\n' ∉ kv.2)
    (hfields : ∀ kv ∈ m.fields, '\n' ∉ kv.1 ∧ '\n' ∉ Field.bytes kv.2) :
    writeMeasurementCore buf m
        = (⟨buf.content ++ measurementLine m, buf.head⟩,
           ((measurementLine m).length : Int), none)
      ∧ (sortStrings (keys m.tags)).Sorted (· ≤ ·)
      ∧ (sortStrings (keys m.fields)).Sorted (· ≤ ·)
      ∧ (measurementLine m).count '\n' = 1
      ∧ (measurementLine m).getLast? = some '\n'
      ∧ newPoint "service.some_event".data scenarioTags scenarioFields = some scenarioPoint
      ∧ writeMeasurementPoint [] scenarioPoint testTimeStamp
          = (expectedScenarioLine.data, (expectedScenarioLine.length : Int), none) := by
  have htags2 : ∀ name ∈ sortStrings (keys m.tags),
      '\n' ∉ name ∧ '\n' ∉ (alookup m.tags name).getD [] := by
    intro name hmem
    have hmemk : name ∈ keys m.tags :=
      (List.perm_insertionSort (· ≤ ·) (keys m.tags)).mem_iff.mp hmem
    have hsome := (alookup_isSome_iff_mem_keys _ _).mpr hmemk
    obtain ⟨v, hv⟩ := Option.isSome_iff_exists.mp hsome
    have hkvmem := alookup_mem _ _ _ hv
    have hkv := htags (name, v) hkvmem
    refine ⟨hkv.1, ?_⟩
    rw [hv]
    exact hkv.2
  have hfields2 : ∀ name ∈ sortStrings (keys m.fields),
      '\n' ∉ name ∧ '\n' ∉ fieldBytesD (alookup m.fields name) := by
    intro name hmem
    have hmemk : name ∈ keys m.fields :=
      (List.perm_insertionSort (· ≤ ·) (keys m.fields)).mem_iff.mp hmem
    have hsome := (alookup_isSome_iff_mem_keys _ _).mpr hmemk
    obtain ⟨v, hv⟩ := Option.isSome_iff_exists.mp hsome
    have hkvmem := alookup_mem _ _ _ hv
    have hkv := hfields (name, v) hkvmem
    refine ⟨hkv.1, ?_⟩
    rw [hv]
    exact hkv.2
  have hc1 : (tagEscape m.key).count '\n' = 0 :=
    List.count_eq_zero.mpr (nl_not_mem_tagEscape _ hkey)
  have hc2 : (tagsBytes m.tags (sortStrings (keys m.tags))).count '\n' = 0 :=
    List.count_eq_zero.mpr (nl_not_mem_tagsBytes _ _ htags2)
  have hc3 : (fieldsBytes m.fields (sortStrings (keys m.fields))).count '\n' = 0 :=
    List.count_eq_zero.mpr (nl_not_mem_fieldsBytes _ _ hfields2)
  have hc4 : (intBytes m.time).count '\n' = 0 :=
    List.count_eq_zero.mpr (nl_not_mem_intBytes _)
  refine ⟨writeMeasurementCore_spec buf m hf,
    List.sorted_insertionSort (· ≤ ·) (keys m.tags),
    List.sorted_insertionSort (· ≤ ·) (keys m.fields),
    ?_, ?_, by decide, by decide⟩
  · simp [measurementLine, List.count_append, hc1, hc2, hc3, hc4]
  · have hshape : measurementLine m
        = (tagEscape m.key ++ tagsBytes m.tags (sortStrings (keys m.tags))
            ++ [' '] ++ fieldsBytes m.fields (sortStrings (keys m.fields))
            ++ [' '] ++ intBytes m.time) ++ ['\n'] := by
      simp [measurementLine, List.append_assoc]
    rw [hshape, List.getLast?_concat]

/-- Witness for C2 at a concrete measurement. -/
theorem writeMeasurement_single_line_witness :
    c2m.fields ≠ [] ∧
    writeMeasurementCore ⟨[], 0⟩ c2m
      = (⟨[] ++ measurementLine c2m, 0⟩, ((measurementLine c2m).length : Int), none) ∧
    (measurementLine c2m).count '\n' = 1 := by
  have h := writeMeasurement_single_line ⟨[], 0⟩ c2m (by decide) (by decide)
    (by decide) (by decide)
  exact ⟨by decide, h.1, h.2.2.2.1⟩

/-! ## C3 and C5: the no-fields paths -/

theorem pointWriteToCore_noFields (w : List Char) (p : Point) (now : Int)
    (hord : p.fieldOrder = []) :
    pointWriteToCore ⟨w, w.length⟩ p now
      = (⟨w, w.length⟩, 0, some DagrError.noFields) := by
  unfold pointWriteToCore
  simp only [TempBuffer.writeString, TempBuffer.writeChar, TempBuffer.len,
    writeTagsBuf_spec, hord, writeFields, List.length_nil]
  rw [if_pos trivial]
  simp only [TempBuffer.truncate]
  have hshape : (w ++ tagEscape p.key ++ tagsBytes p.tags p.tagOrder ++ [' ']).take w.length
      = (w ++ (tagEscape p.key ++ (tagsBytes p.tags p.tagOrder ++ [' ']))).take w.length := by
    simp [List.append_assoc]
  rw [hshape, List.take_left]

theorem measurementLine_ne_nil (m : RawMeasurement) : measurementLine m ≠ [] := by
  simp [measurementLine]

/-- C3: a measurement whose field map is empty — including a `Point`
with no fields, which takes the `io.WriterTo` path and rewinds to its
head — yields `(0, ErrNoFields)` and leaves the caller-supplied buffer
contents unchanged. -/
theorem writeMeasurement_noFields (w : List Char) (m : RawMeasurement) (p : Point)
    (now : Int) (hm : m.fields = []) (hwf : p.wellFormed) (hpf : p.fields = []) :
    writeMeasurementBuf w m = (w, 0, some DagrError.noFields) ∧
    writeMeasurementPoint w p now = (w, 0, some DagrError.noFields) := by
  constructor
  · unfold writeMeasurementBuf writeMeasurementCore
    simp [hm]
  · have hord : p.fieldOrder = [] := by
      have hperm := hwf.2.2
      rw [hpf] at hperm
      exact hperm.eq_nil
    unfold writeMeasurementPoint
    rw [pointWriteToCore_noFields w p now hord]

/-- Witness for C3 with non-trivial prior buffer contents. -/
theorem writeMeasurement_noFields_witness :
    (⟨"x".data, [("t".data, "v".data)], [], 7⟩ : RawMeasurement).fields = [] ∧
    (⟨"k".data, ["t".data], [], [("t".data, "v".data)], []⟩ : Point).wellFormed ∧
    writeMeasurementBuf "prior".data ⟨"x".data, [("t".data, "v".data)], [], 7⟩
      = ("prior".data, 0, some DagrError.noFields) ∧
    writeMeasurementPoint "prior".data
        ⟨"k".data, ["t".data], [], [("t".data, "v".data)], []⟩ 7
      = ("prior".data, 0, some DagrError.noFields) := by
  have h := writeMeasurement_noFields "prior".data
    ⟨"x".data, [("t".data, "v".data)], [], 7⟩
    ⟨"k".data, ["t".data], [], [("t".data, "v".data)], []⟩ 7
    (by decide) (by decide) (by decide)
  exact ⟨by decide, by decide, h.1, h.2⟩

theorem writeMeasurementsLoop_spec (ms : List RawMeasurement) :
    ∀ buf : TempBuffer,
      writeMeasurementsLoop buf ms
        = (⟨buf.content
              ++ ((ms.filter fun m => !m.fields.isEmpty).map measurementLine).flatten,
            buf.head⟩, none) := by
  induction ms with
  | nil =>
    intro buf
    cases buf
    simp [writeMeasurementsLoop]
  | cons m rest ih =>
    intro buf
    by_cases hf : m.fields = []
    · have hcore : writeMeasurementCore buf m = (buf, 0, some DagrError.noFields) := by
        unfold writeMeasurementCore
        simp [hf]
      have htrunc : buf.truncate buf.len = buf := by
        cases buf
        simp [TempBuffer.truncate, TempBuffer.len]
      have hemp : m.fields.isEmpty = true := by
        rw [hf]
        rfl
      have hfilter : ((m :: rest).filter fun m => !m.fields.isEmpty)
          = rest.filter fun m => !m.fields.isEmpty := by
        simp [List.filter_cons, hemp]
      rw [show writeMeasurementsLoop buf (m :: rest)
          = (match (writeMeasurementCore buf m).2.2 with
             | some DagrError.noFields =>
                 writeMeasurementsLoop ((writeMeasurementCore buf m).1.truncate buf.len) rest
             | some e => ((writeMeasurementCore buf m).1.truncate
                 (writeMeasurementCore buf m).1.head, some e)
             | none => writeMeasurementsLoop (writeMeasurementCore buf m).1 rest)
          from rfl]
      rw [hcore]
      simp only []
      rw [htrunc, ih buf, hfilter]
    · have hcore := writeMeasurementCore_spec buf m hf
      have hemp : m.fields.isEmpty = false := by
        cases hfield : m.fields with
        | nil => exact absurd hfield hf
        | cons a l => rfl
      have hfilter : ((m :: rest).filter fun m => !m.fields.isEmpty)
          = m :: rest.filter fun m => !m.fields.isEmpty := by
        simp [List.filter_cons, hemp]
      rw [show writeMeasurementsLoop buf (m :: rest)
          = (match (writeMeasurementCore buf m).2.2 with
             | some DagrError.noFields =>
                 writeMeasurementsLoop ((writeMeasurementCore buf m).1.truncate buf.len) rest
             | some e => ((writeMeasurementCore buf m).1.truncate
                 (writeMeasurementCore buf m).1.head, some e)
             | none => writeMeasurementsLoop (writeMeasurementCore buf m).1 rest)
          from rfl]
      rw [hcore]
      simp only []
      rw [ih ⟨buf.content ++ measurementLine m, buf.head⟩, hfilter]
      simp [List.append_assoc]

/-- C5: `WriteMeasurements` silently skips every measurement reporting
`ErrNoFields`, rewinding to the per-measurement head so the remaining
lines are adjacent with no bytes between them, and returns a nil error;
when the net encoded output is empty it returns `(0, nil)` having
performed no write to the downstream writer. -/
theorem writeMeasurements_skip_noFields (ms : List RawMeasurement) :
    writeMeasurements ms
      = (if (ms.filter fun m => !m.fields.isEmpty) = [] then ([], 0, none)
         else ([((ms.filter fun m => !m.fields.isEmpty).map measurementLine).flatten],
               ((((ms.filter fun m => !m.fields.isEmpty).map measurementLine).flatten).length : Int),
               none)) := by
  have hflatten_nil : (((ms.filter fun m => !m.fields.isEmpty).map measurementLine).flatten = [])
      ↔ (ms.filter fun m => !m.fields.isEmpty) = [] := by
    constructor
    · intro h
      cases hg : ms.filter fun m => !m.fields.isEmpty with
      | nil => rfl
      | cons g rest =>
        rw [hg] at h
        simp only [List.map_cons, List.flatten] at h
        exact absurd (List.append_eq_nil.mp h).1 (measurementLine_ne_nil g)
    · intro h
      rw [h]
      rfl
  unfold writeMeasurements
  by_cases hms : ms.length = 0
  · have hnil : ms = [] := List.eq_nil_of_length_eq_zero hms
    subst hnil
    simp
  · rw [if_neg hms, writeMeasurementsLoop_spec ms ⟨[], 0⟩]
    cases hj : ((ms.filter fun m => !m.fields.isEmpty).map measurementLine).flatten with
    | nil =>
      rw [if_pos (hflatten_nil.mp hj)]
      simp [TempBuffer.len]
    | cons c restj =>
      have hfne : ¬ (ms.filter fun m => !m.fields.isEmpty) = [] := by
        intro h
        rw [hflatten_nil.mpr h] at hj
        exact List.noConfusion hj
      rw [if_neg hfne]
      simp [TempBuffer.len]

/-! ## C4: the retry loop -/

/-- C4: for every retry limit `K` and every environment, `sendData`
calls `Sender.Send` at most `K + 1` times; and whenever the context is
already cancelled at the start of a loop iteration, no Send call is made
in that or any later iteration and the loop returns the non-nil context
error. -/
theorem sendData_retry_bound :
    (∀ (wld : SendWorld) (K : Nat), (sendData wld K).2 ≤ K + 1)
    ∧ (∀ (wld : SendWorld) (K rem i : Nat) (e : GoErr) (acc : Option GoErr),
        wld.ctxAtTop i = some e →
        sendDataGo wld K (rem + 1) i acc = (some e, 0)) := by
  have hcount : ∀ (wld : SendWorld) (K rem i : Nat) (acc : Option GoErr),
      (sendDataGo wld K rem i acc).2 ≤ rem := by
    intro wld K rem
    induction rem with
    | zero => intro i acc; simp [sendDataGo]
    | succ rem ih =>
      intro i acc
      simp only [sendDataGo]
      split
      · exact Nat.zero_le _
      · split
        · exact Nat.succ_le_succ (Nat.zero_le rem)
        · rename_i retry e heq
          split_ifs with h1 h2 h3
          · exact Nat.succ_le_succ (Nat.zero_le rem)
          · exact Nat.succ_le_succ (ih (i + 1) (some e))
          · exact Nat.succ_le_succ (Nat.zero_le rem)
          · exact Nat.succ_le_succ (ih (i + 1) (some e))
  refine ⟨fun wld K => hcount wld K (K + 1) 0 none, ?_⟩
  intro wld K rem i e acc hctx
  simp [sendDataGo, hctx]

/-- Witness for C4: three retries, context cancelled from iteration 1. -/
theorem sendData_retry_bound_witness :
    (sendData c4world 3).2 ≤ 3 + 1
    ∧ c4world.ctxAtTop 1 = some GoErr.deadline
    ∧ sendDataGo c4world 3 (2 + 1) 1 none = (some GoErr.deadline, 0) :=
  ⟨sendData_retry_bound.1 c4world 3, by decide,
   sendData_retry_bound.2 c4world 3 2 1 GoErr.deadline none (by decide)⟩

/-! ## C1, C6, C9: option handling and the allocator -/

/-- C1 (code bug): the condition in `RequestLimit` is inverted.  A
positive limit installs the no-limit queue (sends unlimited), while a
non-positive limit allocates the channel-backed queue — capacity 0 whose
`begin` can never complete on its own, or a negative capacity on which
the Go `make` panics.  The doc comment on the same function and the spec
both require the opposite. -/
theorem requestLimit_inverted :
    RequestLimit 1 = TaskQueue.noRequestLimit
    ∧ RequestLimit 8 = TaskQueue.noRequestLimit
    ∧ RequestLimit 0 = TaskQueue.requestQueue 0
    ∧ RequestLimit (-1) = TaskQueue.requestQueue (-1) := by decide

/-- C6 counterexample: a nil context passed to the flush path does not
panic. -/
theorem flush_nil_ctx_no_panic :
    flushWithCapacityCtx none ≠ CtxOutcome.panicked := by decide

/-- C6 amended: `flushWithCapacity` handles a nil context by logging a
message and proceeding with a substituted `context.TODO()`; by contrast
`Start` panics on a nil context. -/
theorem flush_nil_ctx_logged_substitute :
    flushWithCapacityCtx none = CtxOutcome.proceeded true true
    ∧ startCtxCheck none = CtxOutcome.panicked := by decide

/-- C9 (code bug): with a nil `Tags` map and a non-empty
`IdentifierTag`, `AllocatePoint` overwrites the freshly made map with
`s.Tags.Dup()` — nil again — and then assigns into the nil map, a Go
runtime panic; with a non-nil `Tags` map the call returns the shared
key and the copied tag map with the identifier slot filled. -/
theorem allocatePoint_nil_tags_panics :
    StaticPointAllocator.allocatePoint ⟨"k".data, none, none, "id".data, []⟩ "x".data
        = GoResult.panicked
    ∧ StaticPointAllocator.allocatePoint
        ⟨"k".data, some [("dc".data, "1".data)], none, "id".data, []⟩ "x".data
        = GoResult.ok ("k".data,
            some [("dc".data, "1".data), ("id".data, "x".data)], none) := ⟨rfl, rfl⟩

end Dagr
